import Mathlib

/-!
Shallow embedding of `mfdfa.py` (Multifractal Detrended Fluctuation Analysis).

Conventions of the embedding:
* `numpy` float arrays are modelled as `List ℝ`; the arithmetic is exact real
  arithmetic rather than IEEE floating point.
* Moment orders `Q` are modelled as `List ℚ` (the source docstring declares
  them integers; the source compares `q == 0` exactly, which is decidable on `ℚ`).
* Scales `S` are `List ℕ` (the docstring requires positive integers).
* The ways `dfa` can raise in Python are the `assert` on the segment count;
  a `ZeroDivisionError` from `N // s` when `s = 0` (respectively from
  `(s_max - s_min) / observations` when `observations = 0` in `basic_dfa`);
  and the `TypeError` (expected non-empty vector for x) that `np.polyfit`
  raises at the regression site when the scale set is empty while `Q` is
  not.  All three are modelled with the `Except DfaError` monad (`polyfitE`
  guards the regression; the per-window fit inside `Fvs2` always receives
  the non-empty axis `1..s`, because `s = 0` raises `ZeroDivisionError`
  first).
  `np.log` of a non-positive number and `np.mean` of an empty array do NOT
  raise in numpy (they emit warnings and produce funny floats), so they are
  modelled by the total Mathlib functions (`Real.log 0 = 0`,
  `[].sum / [].length = 0`); no theorem below depends on a value at such a
  junk point.
* `np.polyfit(ax, seg, m)` is the least-squares polynomial fit, coefficient
  of the highest degree first; it is embedded through the normal equations
  `(VᵀV) c = Vᵀ y` solved with the Mathlib matrix inverse (which returns the
  zero matrix on a singular system, where numpy would return a minimum-norm
  solution under a `RankWarning`; no theorem below depends on a value in the
  singular case).
-/

noncomputable section

namespace MFDFA

/-- Error outcomes a `dfa` / `basic_dfa` call can actually raise in Python:
Python division by zero, the segment-count `assert` of line 61, and the
`TypeError` of `np.polyfit` on an empty x-vector. -/
inductive DfaError where
  | zeroDivisionError : DfaError
  | assertionError : ℕ → DfaError
  | typeError : DfaError

/-- Source `np.mean(l)`: the arithmetic mean of a list. -/
def mean (l : List ℝ) : ℝ := l.sum / l.length

/-- Helper for `cumsum`: running sums with accumulator `acc`. -/
def cumsumAux (acc : ℝ) : List ℝ → List ℝ
  | [] => []
  | a :: t => (acc + a) :: cumsumAux (acc + a) t

/-- Source `np.cumsum(l)`: the list of prefix sums. -/
def cumsum (l : List ℝ) : List ℝ := cumsumAux 0 l

/-- Source lines 30-33: `y = x` if `skip_agg` else `y = np.cumsum(x - np.mean(x))`. -/
def profile (x : List ℝ) (skip_agg : Bool) : List ℝ :=
  if skip_agg then x else cumsum (x.map (fun a => a - mean x))

/-- Source `ax = np.arange(1, s+1)`: the local coordinate axis `1, …, s`. -/
def axList (s : ℕ) : List ℝ := (List.range s).map (fun i => (i : ℝ) + 1)

/-- Normal-equation matrix `VᵀV` of the degree-`m` least-squares problem on the
points `pts`, with the numpy highest-degree-first coefficient convention:
entry `(k, l)` is `Σ x ^ ((m-k) + (m-l))`. -/
def normalMat (pts : List (ℝ × ℝ)) (m : ℕ) : Matrix (Fin (m + 1)) (Fin (m + 1)) ℝ :=
  Matrix.of fun k l => (pts.map (fun p => p.1 ^ ((m - (k : ℕ)) + (m - (l : ℕ))))).sum

/-- Normal-equation right-hand side `Vᵀy`: entry `k` is `Σ x ^ (m-k) * y`. -/
def normalVec (pts : List (ℝ × ℝ)) (m : ℕ) : Fin (m + 1) → ℝ :=
  fun k => (pts.map (fun p => p.1 ^ (m - (k : ℕ)) * p.2)).sum

/-- Source `np.polyfit(ax, seg, m)`: coefficients (highest degree first) of the
least-squares degree-`m` polynomial fit of `seg` against `ax`, via the normal
equations.  On a singular system the Mathlib matrix inverse is the zero matrix
(numpy would instead return a minimum-norm solution with a `RankWarning`);
nothing proved below depends on that junk case. -/
def polyfit (ax seg : List ℝ) (m : ℕ) : Fin (m + 1) → ℝ :=
  Matrix.mulVec (normalMat (ax.zip seg) m)⁻¹ (normalVec (ax.zip seg) m)

/-- Entry guard of `np.polyfit`: numpy raises `TypeError` (expected non-empty
vector for x) before fitting when the x-vector is empty.  `dfa` reaches this
only at the regression site with an empty scale set; the per-window fit
inside `Fvs2` always gets the non-empty axis `1..s` (`s = 0` raises
`ZeroDivisionError` earlier). -/
def polyfitE (ax seg : List ℝ) (m : ℕ) : Except DfaError (Fin (m + 1) → ℝ) :=
  if ax.isEmpty then .error .typeError else .ok (polyfit ax seg m)

/-- Source `np.polyval(coef, t)` with the numpy highest-degree-first convention. -/
def polyval (m : ℕ) (coef : Fin (m + 1) → ℝ) (t : ℝ) : ℝ :=
  ∑ k, coef k * t ^ (m - (k : ℕ))

/-- Source lines 43-46, the segment selection inside `Fvs2`:
`y[N-(v-Ns)*s : N-(v-Ns)*s+s]` when `reverse`, else `y[(v-1)*s : v*s]`
(Python half-open slices, here `drop`/`take`; `Ns = N // s`). -/
def segmentOf (y : List ℝ) (s v : ℕ) (reverse : Bool) : List ℝ :=
  if reverse then (y.drop (y.length - (v - y.length / s) * s)).take s
  else (y.drop ((v - 1) * s)).take s

/-- Source lines 35-48, `Fvs2(v, s, reverse)`: mean squared residual of the
degree-`m` polynomial fit of the selected segment against `ax = 1..s`. -/
def Fvs2 (y : List ℝ) (m s v : ℕ) (reverse : Bool) : ℝ :=
  let segment := segmentOf y s v reverse
  let ax := axList s
  let coef := polyfit ax segment m
  let fitting := ax.map (polyval m coef)
  mean ((segment.zip fitting).map (fun p => (p.1 - p.2) ^ 2))

/-- Source lines 55-59: the per-window variances at scale `s`, forward windows
`v = 1, …, Ns` followed by backward windows `v = Ns+1, …, 2*Ns`
(`np.array([[…],[…]]).reshape(-1)` is row-major concatenation). -/
def segsList (y : List ℝ) (m s : ℕ) : List ℝ :=
  let Ns := y.length / s
  ((List.range' 1 Ns).map (fun v => Fvs2 y m s v false)) ++
    ((List.range' (Ns + 1) Ns).map (fun v => Fvs2 y m s v true))

/-- Source lines 63-66: order-`q` aggregation of the per-window variances. -/
def aggregate (segs : List ℝ) (q : ℚ) : ℝ :=
  if q = 0 then Real.exp (mean (segs.map Real.log) / 2)
  else mean (segs.map (fun a => a ^ ((q : ℝ) / 2))) ^ (1 / (q : ℝ))

/-- The fluctuation formula stated in the words of the specification, to be compared with
the code-side `aggregate`: if `q = 0` then
`Fq(s) = exp(mean(log F2(s,v)) / 2)`, else
`Fq(s) = (mean(F2(s,v) ^ (q/2))) ^ (1/q)`. -/
def FqSpec (F2 : List ℝ) (q : ℚ) : ℝ :=
  if q = 0 then Real.exp (mean (F2.map Real.log) / 2)
  else mean (F2.map (fun a => a ^ ((q : ℝ) / 2))) ^ (1 / (q : ℝ))

/-- The slope of the least-squares line fit of `ys` against `xs`, in the
words of the specification (the classical closed form
`(n·Σxy − Σx·Σy) / (n·Σx² − (Σx)²)`). -/
def lsqSlope (xs ys : List ℝ) : ℝ :=
  ((xs.length : ℝ) * ((xs.zip ys).map (fun p => p.1 * p.2)).sum - xs.sum * ys.sum) /
    ((xs.length : ℝ) * (xs.map (fun a => a ^ 2)).sum - xs.sum ^ 2)

/-- One iteration of the scale loop of the source (lines 55-66): raise
`ZeroDivisionError` on `s = 0` (Python `N // s`), model the `assert
len(segs) == 2 * Ns` of line 61, and aggregate. -/
def dfaScale (y : List ℝ) (m : ℕ) (q : ℚ) (s : ℕ) : Except DfaError ℝ :=
  if s = 0 then .error .zeroDivisionError
  else
    let Ns := y.length / s
    let segs := segsList y m s
    if segs.length = 2 * Ns then .ok (aggregate segs q)
    else .error (.assertionError segs.length)

/-- The inner loop of the source, `for j, s in enumerate(S)`, building `Fqs`. -/
def computeFqs (y : List ℝ) (m : ℕ) (q : ℚ) : List ℕ → Except DfaError (List ℝ)
  | [] => .ok []
  | s :: rest => do
      let F ← dfaScale y m q s
      let Fs ← computeFqs y m q rest
      .ok (F :: Fs)

/-- The outer loop of the source, `for i, q in enumerate(Q)`, building `Fhq`:
line 68-69, `np.polyfit(np.log(S), np.log(Fqs), 1)[0]` per order. -/
def computeFhq (y : List ℝ) (m : ℕ) (S : List ℕ) : List ℚ → Except DfaError (List ℝ)
  | [] => .ok []
  | q :: rest => do
      let Fqs ← computeFqs y m q S
      let coef ← polyfitE (S.map (fun s : ℕ => Real.log (s : ℝ))) (Fqs.map Real.log) 1
      let hs ← computeFhq y m S rest
      .ok (coef 0 :: hs)

/-- Source `dfa(x, S, m, Q, skip_agg)`. -/
def dfa (x : List ℝ) (S : List ℕ) (m : ℕ) (Q : List ℚ) (skip_agg : Bool) :
    Except DfaError (List ℝ) :=
  computeFhq (profile x skip_agg) m S Q

/-- Source line 80: `s_min = max(20, int(np.floor(N/100)))`. -/
def basic_dfa_smin (N : ℕ) : ℤ := max 20 ((N / 100 : ℕ) : ℤ)

/-- Source line 81: `s_max = min(20*s_min, int(np.floor(N/10)))`. -/
def basic_dfa_smax (N : ℕ) : ℤ := min (20 * basic_dfa_smin N) ((N / 10 : ℕ) : ℤ)

/-- Source line 82: `s_inc = (s_max - s_min) / observations` (exact rational
in place of the Python float quotient). -/
def basic_dfa_sinc (N c : ℕ) : ℚ := ((basic_dfa_smax N - basic_dfa_smin N : ℤ) : ℚ) / (c : ℚ)

/-- Source line 83: `S = [s_min + int(np.floor(i*s_inc)) for i in range(0, observations)]`
(`np.floor` rounds toward minus infinity, hence `Int.floor`). -/
def scaleSet (N c : ℕ) : List ℤ :=
  (List.range c).map (fun i : ℕ => basic_dfa_smin N + ⌊(i : ℚ) * basic_dfa_sinc N c⌋)

/-- Source `basic_dfa(x, Q, skip_agg, observations)`: derive the default scale
set from `N = len(x)` and call `dfa` with `m = 1`.  `observations = 0` raises
`ZeroDivisionError` in Python at line 82 before `S` is built.  The scale-set
entries are always nonnegative (`scaleSet_nonneg` below), so the `Int.toNat`
bridge to the `List ℕ` scales of `dfa` is faithful. -/
def basic_dfa (x : List ℝ) (Q : List ℚ) (skip_agg : Bool) (c : ℕ) :
    Except DfaError (List ℝ) :=
  if c = 0 then .error .zeroDivisionError
  else dfa x ((scaleSet x.length c).map Int.toNat) 1 Q skip_agg

/-! Helper lemmas (shared; no claim theorem among them). -/

theorem cumsumAux_get? (l : List ℝ) : ∀ (acc : ℝ) (i : ℕ), i < l.length →
    (cumsumAux acc l).get? i = some (acc + (l.take (i + 1)).sum) := by
  induction l with
  | nil => intro acc i h; simp at h
  | cons a t ih =>
    intro acc i h
    cases i with
    | zero => simp [cumsumAux]
    | succ n =>
      have hn : n < t.length := by simpa using Nat.lt_of_succ_lt_succ h
      have := ih (acc + a) n hn
      simp only [cumsumAux, List.get?, this, List.take_succ_cons, List.sum_cons]
      rw [add_assoc]

theorem cumsum_get? (l : List ℝ) (i : ℕ) (h : i < l.length) :
    (cumsum l).get? i = some ((l.take (i + 1)).sum) := by
  simpa using cumsumAux_get? l 0 i h

theorem segsList_length (y : List ℝ) (m s : ℕ) :
    (segsList y m s).length = 2 * (y.length / s) := by
  simp [segsList, two_mul]

theorem dfaScale_eq_ok (y : List ℝ) (m : ℕ) (q : ℚ) (s : ℕ) (hs : 1 ≤ s) :
    dfaScale y m q s = .ok (aggregate (segsList y m s) q) := by
  have h0 : s ≠ 0 := by omega
  simp [dfaScale, h0, segsList_length]

theorem computeFqs_eq_ok (y : List ℝ) (m : ℕ) (q : ℚ) :
    ∀ (S : List ℕ), (∀ s ∈ S, 1 ≤ s) →
      computeFqs y m q S = .ok (S.map (fun s => aggregate (segsList y m s) q)) := by
  intro S
  induction S with
  | nil => intro _; rfl
  | cons s rest ih =>
    intro h
    have h1 : 1 ≤ s := h s (List.mem_cons_self s rest)
    rw [computeFqs, dfaScale_eq_ok y m q s h1,
      ih (fun t ht => h t (List.mem_cons_of_mem s ht))]
    rfl

theorem computeFhq_eq_ok (y : List ℝ) (m : ℕ) (S : List ℕ) (hS : ∀ s ∈ S, 1 ≤ s)
    (hne : S ≠ []) :
    ∀ (Q : List ℚ), computeFhq y m S Q = .ok (Q.map (fun q =>
      polyfit (S.map (fun s : ℕ => Real.log (s : ℝ)))
        ((S.map (fun s => aggregate (segsList y m s) q)).map Real.log) 1 0)) := by
  intro Q
  induction Q with
  | nil => rfl
  | cons q rest ih =>
    rw [computeFhq, computeFqs_eq_ok y m q S hS, ih]
    cases S with
    | nil => exact absurd rfl hne
    | cons s0 S0 => rfl

theorem dfa_eq_ok (x : List ℝ) (S : List ℕ) (m : ℕ) (Q : List ℚ) (sa : Bool)
    (hS : ∀ s ∈ S, 1 ≤ s) (hne : S ≠ []) :
    dfa x S m Q sa = .ok (Q.map (fun q =>
      polyfit (S.map (fun s : ℕ => Real.log (s : ℝ)))
        ((S.map (fun s => aggregate (segsList (profile x sa) m s) q)).map Real.log) 1 0)) :=
  computeFhq_eq_ok (profile x sa) m S hS hne Q

theorem sum_sq_sub_const (c : ℝ) : ∀ (l : List ℝ),
    (l.map (fun t => (t - c) ^ 2)).sum =
      (l.map (fun t => t ^ 2)).sum - 2 * c * l.sum + l.length * c ^ 2 := by
  intro l
  induction l with
  | nil => simp
  | cons a t ih =>
    simp only [List.map_cons, List.sum_cons, List.length_cons, ih]
    push_cast
    ring

theorem sq_sum_denom_pos (xs : List ℝ) (a b : ℝ) (ha : a ∈ xs) (hb : b ∈ xs)
    (hab : a ≠ b) :
    0 < (xs.length : ℝ) * (xs.map (fun t => t ^ 2)).sum - xs.sum ^ 2 := by
  have hne : xs ≠ [] := List.ne_nil_of_mem ha
  have hlen : 0 < xs.length := List.length_pos.mpr hne
  have hn : (0 : ℝ) < (xs.length : ℝ) := by exact_mod_cast hlen
  set n : ℝ := (xs.length : ℝ) with hn_def
  set mu : ℝ := xs.sum / n with hmu
  have hpick : ∃ e ∈ xs, e ≠ mu := by
    by_cases hA : a = mu
    · exact ⟨b, hb, by rw [← hA]; exact fun hB => hab (hB.symm ▸ rfl)⟩
    · exact ⟨a, ha, hA⟩
  obtain ⟨e, he_mem, he⟩ := hpick
  have hterm : 0 < (e - mu) ^ 2 := by
    have h1 : e - mu ≠ 0 := sub_ne_zero.mpr he
    exact lt_of_le_of_ne (sq_nonneg _) (Ne.symm (pow_ne_zero 2 h1))
  have hmemsq : (e - mu) ^ 2 ∈ xs.map (fun t => (t - mu) ^ 2) :=
    List.mem_map_of_mem _ he_mem
  have hnonneg : ∀ r ∈ xs.map (fun t => (t - mu) ^ 2), 0 ≤ r := by
    intro r hr
    obtain ⟨t, _, rfl⟩ := List.mem_map.mp hr
    exact sq_nonneg _
  have hsum_pos : 0 < (xs.map (fun t => (t - mu) ^ 2)).sum :=
    lt_of_lt_of_le hterm (List.single_le_sum hnonneg _ hmemsq)
  have hkey : n * (xs.map (fun t => (t - mu) ^ 2)).sum =
      n * (xs.map (fun t => t ^ 2)).sum - xs.sum ^ 2 := by
    rw [sum_sq_sub_const mu xs, hmu, ← hn_def]
    field_simp
    ring
  have := mul_pos hn hsum_pos
  rw [hkey] at this
  exact this

theorem sq_sum_denom_zero (xs : List ℝ) (hconst : ∀ a ∈ xs, ∀ b ∈ xs, a = b) :
    (xs.length : ℝ) * (xs.map (fun t => t ^ 2)).sum - xs.sum ^ 2 = 0 := by
  cases xs with
  | nil => simp
  | cons a t =>
    have hall : ∀ b ∈ a :: t, b = a := fun b hb =>
      hconst b hb a (List.mem_cons_self a t)
    have hsum : ∀ (l : List ℝ), (∀ b ∈ l, b = a) →
        l.sum = l.length * a ∧ (l.map (fun u => u ^ 2)).sum = l.length * a ^ 2 := by
      intro l
      induction l with
      | nil => intro _; simp
      | cons u r ih =>
        intro h
        have hu : u = a := h u (List.mem_cons_self u r)
        obtain ⟨h1, h2⟩ := ih (fun b hb => h b (List.mem_cons_of_mem u hb))
        constructor
        · simp only [List.sum_cons, List.length_cons, h1, hu]
          push_cast
          ring
        · simp only [List.map_cons, List.sum_cons, List.length_cons, h2, hu]
          push_cast
          ring
    obtain ⟨h1, h2⟩ := hsum (a :: t) hall
    rw [h1, h2]
    ring

theorem log_nat_injective (s t : ℕ) (hs : 1 ≤ s) (ht : 1 ≤ t) (hst : s ≠ t) :
    Real.log s ≠ Real.log t := by
  rcases Nat.lt_or_ge s t with h | h
  · have : Real.log s < Real.log t := by
      apply Real.log_lt_log
      · exact_mod_cast hs
      · exact_mod_cast h
    exact ne_of_lt this
  · have hlt : t < s := lt_of_le_of_ne h (Ne.symm hst)
    have : Real.log t < Real.log s := by
      apply Real.log_lt_log
      · exact_mod_cast ht
      · exact_mod_cast hlt
    exact (ne_of_lt this).symm

theorem polyfit_deg1_eq_lsqSlope (xs ys : List ℝ) (hlen : xs.length = ys.length) :
    polyfit xs ys 1 0 = lsqSlope xs ys := by
  set pts := xs.zip ys with hpts
  have hfst : pts.map Prod.fst = xs := List.map_fst_zip xs ys (le_of_eq hlen)
  have hsnd : pts.map Prod.snd = ys := List.map_snd_zip xs ys (le_of_eq hlen.symm)
  have hptslen : (pts.length : ℝ) = (xs.length : ℝ) := by
    simp [hpts, List.length_zip, hlen]
  have hx : ∀ e : ℕ, (pts.map (fun p => p.1 ^ e)).sum = (xs.map (fun a => a ^ e)).sum := by
    intro e
    rw [← hfst, List.map_map]
    rfl
  have hy : (pts.map (fun p => p.2)).sum = ys.sum := by
    rw [← hsnd]
  have hone : (pts.map (fun p : ℝ × ℝ => p.1 ^ 0)).sum = (pts.length : ℝ) := by
    simp
  have hx2 : (pts.map (fun p => p.1 ^ 2)).sum = (xs.map (fun a => a ^ 2)).sum := hx 2
  have hx1 : (pts.map (fun p => p.1 ^ 1)).sum = xs.sum := by
    rw [hx 1]
    simp [pow_one]
  have hone2 : (pts.map (fun p : ℝ × ℝ => p.1 ^ 0)).sum = (xs.length : ℝ) :=
    hone.trans hptslen
  have hxy : (pts.map (fun p => p.1 ^ 1 * p.2)).sum =
      ((xs.zip ys).map (fun p => p.1 * p.2)).sum := by
    simp only [pow_one, hpts]
  have hy2 : (pts.map (fun p => p.1 ^ 0 * p.2)).sum = ys.sum := by
    simp only [pow_zero, one_mul]
    exact hy
  have key : ∀ (A : Matrix (Fin 2) (Fin 2) ℝ) (v : Fin 2 → ℝ),
      Matrix.mulVec A⁻¹ v 0 =
        (A 0 0 * A 1 1 - A 0 1 * A 1 0)⁻¹ * (A 1 1 * v 0 + -(A 0 1) * v 1) := by
    intro A v
    rw [Matrix.inv_def, Matrix.smul_mulVec_assoc, Pi.smul_apply, smul_eq_mul,
      Matrix.det_fin_two, Matrix.adjugate_fin_two, Ring.inverse_eq_inv]
    simp [Matrix.mulVec, Matrix.dotProduct, Fin.sum_univ_two]
  have happ : polyfit xs ys 1 0 =
      ((pts.map (fun p => p.1 ^ 2)).sum * (pts.map (fun p : ℝ × ℝ => p.1 ^ 0)).sum -
          (pts.map (fun p => p.1 ^ 1)).sum * (pts.map (fun p => p.1 ^ 1)).sum)⁻¹ *
        ((pts.map (fun p : ℝ × ℝ => p.1 ^ 0)).sum * (pts.map (fun p => p.1 ^ 1 * p.2)).sum +
          -((pts.map (fun p => p.1 ^ 1)).sum) * (pts.map (fun p => p.1 ^ 0 * p.2)).sum) :=
    key (normalMat pts 1) (normalVec pts 1)
  rw [happ, hx2, hx1, hone2, hxy, hy2, lsqSlope, div_eq_inv_mul]
  congr 1
  · congr 1
    ring
  · ring

theorem drop_take_spec (l : List ℝ) (a s : ℕ) (h : a + s ≤ l.length) :
    ((l.drop a).take s).length = s ∧
      ∀ i, i < s → ((l.drop a).take s).get? i = l.get? (a + i) := by
  constructor
  · rw [List.length_take, List.length_drop]
    omega
  · intro i hi
    rw [List.get?_take hi, List.get?_drop]

theorem scaleSet_length (N c : ℕ) : (scaleSet N c).length = c := by
  rw [scaleSet, List.length_map, List.length_range]

theorem scaleSet_get? (N c i : ℕ) (hi : i < c) :
    (scaleSet N c).get? i =
      some (basic_dfa_smin N + ⌊(i : ℚ) * basic_dfa_sinc N c⌋) := by
  rw [scaleSet, List.get?_eq_getElem?, List.getElem?_map, List.getElem?_range hi]
  rfl

theorem smin_ge_twenty (N : ℕ) : (20 : ℤ) ≤ basic_dfa_smin N := le_max_left _ _

theorem smax_nonneg (N : ℕ) : 0 ≤ basic_dfa_smax N := by
  have h := smin_ge_twenty N
  apply le_min
  · linarith
  · exact Int.natCast_nonneg _

theorem scaleSet_nonneg (N c : ℕ) : ∀ a ∈ scaleSet N c, 0 ≤ a := by
  intro a ha
  rw [scaleSet] at ha
  obtain ⟨i, hi, rfl⟩ := List.mem_map.mp ha
  have hic : i < c := List.mem_range.mp hi
  have hsmin := smin_ge_twenty N
  have hsmax := smax_nonneg N
  rcases le_or_lt 0 (basic_dfa_sinc N c) with hpos | hneg
  · have hmul : (0 : ℚ) ≤ (i : ℚ) * basic_dfa_sinc N c :=
      mul_nonneg (by positivity) hpos
    have hfl : (0 : ℤ) ≤ ⌊(i : ℚ) * basic_dfa_sinc N c⌋ :=
      Int.le_floor.mpr (by exact_mod_cast hmul)
    linarith
  · have hc : c ≠ 0 := by
      intro h0
      rw [h0] at hneg
      simp [basic_dfa_sinc] at hneg
    have hcQ : (0 : ℚ) < (c : ℚ) := by
      exact_mod_cast Nat.pos_of_ne_zero hc
    have hd : ((basic_dfa_smax N - basic_dfa_smin N : ℤ) : ℚ) < 0 := by
      have heq : ((basic_dfa_smax N - basic_dfa_smin N : ℤ) : ℚ) =
          basic_dfa_sinc N c * (c : ℚ) := by
        rw [basic_dfa_sinc]
        field_simp
      rw [heq]
      exact mul_neg_of_neg_of_pos hneg hcQ
    have hkey : ((basic_dfa_smax N - basic_dfa_smin N : ℤ) : ℚ) ≤
        (i : ℚ) * basic_dfa_sinc N c := by
      rw [basic_dfa_sinc, ← mul_div_assoc, le_div_iff hcQ]
      have hiq : (i : ℚ) ≤ (c : ℚ) := by exact_mod_cast le_of_lt hic
      calc ((basic_dfa_smax N - basic_dfa_smin N : ℤ) : ℚ) * (c : ℚ)
          = (c : ℚ) * ((basic_dfa_smax N - basic_dfa_smin N : ℤ) : ℚ) := mul_comm _ _
        _ ≤ (i : ℚ) * ((basic_dfa_smax N - basic_dfa_smin N : ℤ) : ℚ) :=
            mul_le_mul_of_nonpos_right hiq (le_of_lt hd)
    have hfl2 : basic_dfa_smax N - basic_dfa_smin N ≤
        ⌊(i : ℚ) * basic_dfa_sinc N c⌋ := Int.le_floor.mpr hkey
    linarith

/-! Claim theorems. -/

/-- C1: for every profile `y`, scale `s` with `Ns = N / s ≥ 1` and moment
order `q`, the per-scale computation of `dfa` uses the `2·Ns` per-window
variances `F2(s,v)` (the list `segsList y m s`) and computes on them exactly
the fluctuation formula `FqSpec` of the specification: `exp(mean(log F2)/2)` when
`q = 0`, and `(mean(F2 ^ (q/2))) ^ (1/q)` otherwise. -/
theorem c1_fluctuation_aggregation (y : List ℝ) (m : ℕ) (q : ℚ) (s : ℕ)
    (hs : 1 ≤ s) (_hNs : 1 ≤ y.length / s) :
    (segsList y m s).length = 2 * (y.length / s) ∧
      dfaScale y m q s = .ok (FqSpec (segsList y m s) q) :=
  ⟨segsList_length y m s, dfaScale_eq_ok y m q s hs⟩

/-- C1 witness: the theorem applied at `y = [1,2,3,4]`, `m = 1`, `q = 0`, `s = 2`. -/
theorem c1_fluctuation_aggregation_witness :
    (1 ≤ 2 ∧ 1 ≤ ([1, 2, 3, 4] : List ℝ).length / 2) ∧
      ((segsList [1, 2, 3, 4] 1 2).length = 2 * (([1, 2, 3, 4] : List ℝ).length / 2) ∧
        dfaScale [1, 2, 3, 4] 1 0 2 = .ok (FqSpec (segsList [1, 2, 3, 4] 1 2) 0)) :=
  ⟨⟨by decide, by decide⟩,
    c1_fluctuation_aggregation [1, 2, 3, 4] 1 0 2 (by decide) (by decide)⟩

/-- C3: for every non-empty series `x`: with `skip_agg` true the profile is `x`
unchanged, and with `skip_agg` false the profile entry `i` is the cumulative
sum up to `i` of `x[j] - mean(x)`. -/
theorem c3_profile_contract (x : List ℝ) (_hx : x ≠ []) :
    profile x true = x ∧
      ∀ i, i < x.length →
        (profile x false).get? i =
          some (((x.take (i + 1)).map (fun a => a - mean x)).sum) := by
  refine ⟨rfl, ?_⟩
  intro i hi
  have hlen : i < (x.map (fun a => a - mean x)).length := by
    rw [List.length_map]
    exact hi
  have h1 : profile x false = cumsum (x.map (fun a => a - mean x)) := rfl
  rw [h1, cumsum_get? _ i hlen, List.map_take]

/-- C3 witness: the theorem applied at `x = [1, 2]`, entry `i = 1`. -/
theorem c3_profile_contract_witness :
    profile [1, 2] true = [1, 2] ∧
      (profile [1, 2] false).get? 1 =
        some ((([1, 2] : List ℝ).take 2).map (fun a => a - mean [1, 2])).sum := by
  have h := c3_profile_contract [1, 2] (by simp)
  exact ⟨h.1, h.2 1 (by decide)⟩

/-- C5: evaluation at the failing input of the claim.  For the constant series
`x = [1,1,1,1]` with `q = 0` among the requested orders (scale set `[2]`,
`m = 1`), `dfa` returns successfully: no `DomainError` (nor any other error)
reaches the caller, although every window variance is exactly zero.  In numpy
the `np.log(0)` inside the aggregation merely emits a `RuntimeWarning` and
produces `-inf`. -/
theorem c5_constant_series_q0_no_error :
    (dfa [1, 1, 1, 1] [2] 1 [0] false).isOk = true := by
  rw [dfa_eq_ok [1, 1, 1, 1] [2] 1 [0] false (by decide) (by decide)]
  rfl

/-- C6 counterexample: the call `dfa([], [0], 5, [], skip_agg=False)` violates
the boundary preconditions (`x` empty, scale `0 ≤ m` and outside `[1, N/2]`,
`Q` empty), yet it does not fail: it returns the empty result. -/
theorem c6_counterexample : dfa ([] : List ℝ) [0] 5 [] false = .ok [] := rfl

/-- C6 amended: `dfa` performs no boundary validation at all.  Whenever `Q` is
empty the call returns `ok []` immediately, for every `x`, `S`, `m`,
`skip_agg` — including argument combinations that violate every precondition
of the specification; no descriptive error is raised before computation. -/
theorem c6_no_boundary_validation (x : List ℝ) (S : List ℕ) (m : ℕ) (sa : Bool) :
    dfa x S m [] sa = .ok [] := rfl

/-- C7: at every scale `1 ≤ s ≤ N/2` the number of forward windows plus the
number of backward windows is exactly `2 * (N / s)`, and the source
assertion on that count never fires: the per-scale computation returns
normally. -/
theorem c7_segment_count (y : List ℝ) (m : ℕ) (q : ℚ) (s : ℕ)
    (hs : 1 ≤ s) (_hhalf : 2 * s ≤ y.length) :
    (segsList y m s).length = 2 * (y.length / s) ∧
      dfaScale y m q s = .ok (aggregate (segsList y m s) q) :=
  ⟨segsList_length y m s, dfaScale_eq_ok y m q s hs⟩

/-- C7 witness: the theorem applied at `y = [1,2,3,4,5]`, `m = 1`, `q = 2`, `s = 2`. -/
theorem c7_segment_count_witness :
    (1 ≤ 2 ∧ 2 * 2 ≤ ([1, 2, 3, 4, 5] : List ℝ).length) ∧
      ((segsList [1, 2, 3, 4, 5] 1 2).length = 2 * (([1, 2, 3, 4, 5] : List ℝ).length / 2) ∧
        dfaScale [1, 2, 3, 4, 5] 1 2 2 = .ok (aggregate (segsList [1, 2, 3, 4, 5] 1 2) 2)) :=
  ⟨⟨by decide, by decide⟩, c7_segment_count [1, 2, 3, 4, 5] 1 2 2 (by decide) (by decide)⟩

/-- C2 counterexample: at `y = [0,1,2,3]` and `s = 2` (so `Ns = 2`), the LAST
backward window is `v = 2·Ns = 4` and covers `y[0:2] = [0,1]`; its last sample
is `1`, not the last sample `3` of the series.  (It is the FIRST backward window,
`v = Ns+1`, that is tail-aligned.) -/
theorem c2_counterexample :
    (segmentOf [0, 1, 2, 3] 2 (2 * (([0, 1, 2, 3] : List ℝ).length / 2)) true).getLast? ≠
      ([0, 1, 2, 3] : List ℝ).getLast? := by
  show some (1 : ℝ) ≠ some 3
  simp only [ne_eq, Option.some.injEq]
  norm_num

/-- C2 amended: for every profile `y` and scale `s ≥ 1`, forward window `v`
(`1 ≤ v`, `v·s ≤ N`) consists of samples `y[(v-1)·s : v·s)` and backward
window `v` (`Ns < v ≤ 2·Ns`) consists of samples
`y[N-(v-Ns)·s : N-(v-Ns)·s+s)`; the last sample of the series is the last
sample of the FIRST backward window `v = Ns + 1` (not of the last one, see
the counterexample). -/
theorem c2_window_layout (y : List ℝ) (s : ℕ) (hs : 1 ≤ s) :
    (∀ v, 1 ≤ v → v * s ≤ y.length →
        (segmentOf y s v false).length = s ∧
          ∀ i, i < s → (segmentOf y s v false).get? i = y.get? ((v - 1) * s + i)) ∧
      (∀ v, y.length / s < v → v ≤ 2 * (y.length / s) →
        (segmentOf y s v true).length = s ∧
          ∀ i, i < s →
            (segmentOf y s v true).get? i =
              y.get? (y.length - (v - y.length / s) * s + i)) ∧
      (1 ≤ y.length / s →
        (segmentOf y s (y.length / s + 1) true).getLast? = y.getLast?) := by
  refine ⟨?_, ?_, ?_⟩
  · intro v hv1 hv2
    have hmul : (v - 1) * s + s = v * s := by
      cases v with
      | zero => omega
      | succ n => simp [Nat.succ_sub_one, Nat.succ_mul]
    have ha : (v - 1) * s + s ≤ y.length := by
      rw [hmul]
      exact hv2
    have hspec := drop_take_spec y ((v - 1) * s) s ha
    exact ⟨hspec.1, hspec.2⟩
  · intro v hv1 hv2
    have hdm : (y.length / s) * s ≤ y.length := Nat.div_mul_le_self _ _
    have hvNs : v - y.length / s ≤ y.length / s := by
      apply Nat.sub_le_of_le_add
      rw [two_mul] at hv2
      exact hv2
    have hk1 : 1 ≤ v - y.length / s := by
      apply Nat.le_sub_of_add_le
      rw [Nat.add_comm]
      exact hv1
    have hks : (v - y.length / s) * s ≤ (y.length / s) * s :=
      Nat.mul_le_mul_right s hvNs
    have h2 : (v - y.length / s) * s ≤ y.length := le_trans hks hdm
    have hs_le : s ≤ (v - y.length / s) * s := by
      conv_lhs => rw [← Nat.one_mul s]
      exact Nat.mul_le_mul_right s hk1
    have key : (y.length - (v - y.length / s) * s) + s ≤ y.length := by
      calc (y.length - (v - y.length / s) * s) + s
          ≤ (y.length - (v - y.length / s) * s) + (v - y.length / s) * s :=
            Nat.add_le_add_left hs_le _
        _ = y.length := Nat.sub_add_cancel h2
    have hspec := drop_take_spec y (y.length - (v - y.length / s) * s) s key
    exact ⟨hspec.1, hspec.2⟩
  · intro hNs
    have hsN : s ≤ y.length := by
      calc s = 1 * s := (Nat.one_mul s).symm
        _ ≤ (y.length / s) * s := Nat.mul_le_mul_right s hNs
        _ ≤ y.length := Nat.div_mul_le_self _ _
    have hseg : segmentOf y s (y.length / s + 1) true =
        (y.drop (y.length - s)).take s := by
      rw [segmentOf]
      simp [Nat.add_sub_cancel_left]
    have hdroplen : (y.drop (y.length - s)).length = s := by
      rw [List.length_drop]
      omega
    have htake : (y.drop (y.length - s)).take s = y.drop (y.length - s) :=
      List.take_of_length_le (le_of_eq hdroplen)
    rw [hseg, htake, List.getLast?_drop, if_neg (by omega)]

/-- C2 witness: the amended theorem applied at `y = [1,2,3,4]`, `s = 2`,
projected to forward window `v = 2` at offset `i = 1`, backward window
`v = 4` at offset `i = 0`, and the tail alignment of window `v = Ns+1 = 3`. -/
theorem c2_window_layout_witness :
    (segmentOf [1, 2, 3, 4] 2 2 false).get? 1 = ([1, 2, 3, 4] : List ℝ).get? 3 ∧
      (segmentOf [1, 2, 3, 4] 2 4 true).get? 0 = ([1, 2, 3, 4] : List ℝ).get? 0 ∧
      (segmentOf [1, 2, 3, 4] 2 (([1, 2, 3, 4] : List ℝ).length / 2 + 1) true).getLast? =
        ([1, 2, 3, 4] : List ℝ).getLast? := by
  have h := c2_window_layout [1, 2, 3, 4] 2 (by decide)
  exact ⟨(h.1 2 (by decide) (by decide)).2 1 (by decide),
    (h.2.1 4 (by decide) (by decide)).2 0 (by decide),
    h.2.2 (by decide)⟩

/-- C4: for every valid input (positive scales, at least two distinct scales),
`dfa` returns `ok` with exactly one value per element of `Q`, in the order `Q`
was given, and the value for `q` is the least-squares slope `lsqSlope` of
`log Fq(s)` against `log s` over `S`; moreover the denominator of that slope is
strictly positive, so the line fit is well-posed. -/
theorem c4_slope_per_order (x : List ℝ) (S : List ℕ) (m : ℕ) (Q : List ℚ) (sa : Bool)
    (hS : ∀ s ∈ S, 1 ≤ s) (hdist : ∃ a ∈ S, ∃ b ∈ S, a ≠ b) :
    dfa x S m Q sa = .ok (Q.map (fun q =>
        lsqSlope (S.map (fun s : ℕ => Real.log (s : ℝ)))
          ((S.map (fun s => aggregate (segsList (profile x sa) m s) q)).map Real.log))) ∧
      0 < ((S.map (fun s : ℕ => Real.log (s : ℝ))).length : ℝ) *
            ((S.map (fun s : ℕ => Real.log (s : ℝ))).map (fun t => t ^ 2)).sum -
          (S.map (fun s : ℕ => Real.log (s : ℝ))).sum ^ 2 := by
  have hne : S ≠ [] := by
    obtain ⟨a, haS, _⟩ := hdist
    exact List.ne_nil_of_mem haS
  constructor
  · rw [dfa_eq_ok x S m Q sa hS hne]
    congr 1
    apply List.map_congr_left
    intro q _
    apply polyfit_deg1_eq_lsqSlope
    simp [List.length_map]
  · obtain ⟨a, haS, b, hbS, hab⟩ := hdist
    exact sq_sum_denom_pos _ (Real.log a) (Real.log b)
      (List.mem_map_of_mem _ haS) (List.mem_map_of_mem _ hbS)
      (log_nat_injective a b (hS a haS) (hS b hbS) hab)

/-- C4 witness: the theorem applied at `x = [1,2,3,4]`, `S = [2,3]`, `m = 1`,
`Q = [0,2]`, `skip_agg = true`, projected to the well-posedness conjunct. -/
theorem c4_slope_per_order_witness :
    0 < ((([2, 3] : List ℕ).map (fun s : ℕ => Real.log (s : ℝ))).length : ℝ) *
          ((([2, 3] : List ℕ).map (fun s : ℕ => Real.log (s : ℝ))).map (fun t => t ^ 2)).sum -
        (([2, 3] : List ℕ).map (fun s : ℕ => Real.log (s : ℝ))).sum ^ 2 :=
  (c4_slope_per_order [1, 2, 3, 4] [2, 3] 1 [0, 2] true (by decide)
    ⟨2, by decide, 3, by decide, by decide⟩).2

/-- C8 counterexample: with `observations = 0` the Python division
`(s_max - s_min) / observations` raises `ZeroDivisionError` before any scale
set is built, so `basic_dfa` does not produce a `ScaleSet` of length `0`. -/
theorem c8_counterexample :
    basic_dfa [1] [2] true 0 = .error .zeroDivisionError := rfl

/-- C8 amended: for every series `x` (length `N`) and every observations count
`c ≥ 1`, `basic_dfa` selects `s_min = max(20, N/100)`,
`s_max = min(20*s_min, N/10)`, `s_inc = (s_max - s_min)/c`,
`S[i] = s_min + ⌊i * s_inc⌋` for `i < c`, produces a scale set of length
exactly `c`, and calls `dfa` with polynomial degree `m = 1`; in particular for
`N ≥ 200`, `s_min ≥ 20` and `s_max ≤ N/10`.  (For `c = 0` the call instead
raises `ZeroDivisionError`, see the counterexample.) -/
theorem c8_parameter_selection (x : List ℝ) (Q : List ℚ) (sa : Bool) (c : ℕ)
    (hc : 1 ≤ c) :
    basic_dfa_smin x.length = max 20 ((x.length / 100 : ℕ) : ℤ) ∧
      basic_dfa_smax x.length = min (20 * basic_dfa_smin x.length) ((x.length / 10 : ℕ) : ℤ) ∧
      basic_dfa_sinc x.length c =
        ((basic_dfa_smax x.length - basic_dfa_smin x.length : ℤ) : ℚ) / (c : ℚ) ∧
      (scaleSet x.length c).length = c ∧
      (∀ i, i < c → (scaleSet x.length c).get? i =
        some (basic_dfa_smin x.length + ⌊(i : ℚ) * basic_dfa_sinc x.length c⌋)) ∧
      basic_dfa x Q sa c = dfa x ((scaleSet x.length c).map Int.toNat) 1 Q sa ∧
      (200 ≤ x.length → 20 ≤ basic_dfa_smin x.length ∧
        basic_dfa_smax x.length ≤ ((x.length / 10 : ℕ) : ℤ)) := by
  refine ⟨rfl, rfl, rfl, scaleSet_length _ _, ?_, ?_, ?_⟩
  · intro i hi
    exact scaleSet_get? _ _ _ hi
  · rw [basic_dfa, if_neg (by omega)]
  · intro _
    exact ⟨smin_ge_twenty _, min_le_right _ _⟩

/-- C8 witness: the amended theorem applied at a series of length `300` and
`c = 100`, projected to the scale-set length, the `i = 0` entry and the
`N ≥ 200` conjunct. -/
theorem c8_parameter_selection_witness :
    (scaleSet (List.replicate 300 (0 : ℝ)).length 100).length = 100 ∧
      (scaleSet (List.replicate 300 (0 : ℝ)).length 100).get? 0 =
        some (basic_dfa_smin (List.replicate 300 (0 : ℝ)).length +
          ⌊(0 : ℚ) * basic_dfa_sinc (List.replicate 300 (0 : ℝ)).length 100⌋) ∧
      20 ≤ basic_dfa_smin (List.replicate 300 (0 : ℝ)).length ∧
      basic_dfa_smax (List.replicate 300 (0 : ℝ)).length ≤
        (((List.replicate 300 (0 : ℝ)).length / 10 : ℕ) : ℤ) := by
  have h := c8_parameter_selection (List.replicate 300 (0 : ℝ)) [2] false 100 (by decide)
  refine ⟨h.2.2.2.1, ?_, h.2.2.2.2.2.2 (by rw [List.length_replicate]; omega)⟩
  have h0 := h.2.2.2.2.1 0 (by decide)
  exact_mod_cast h0

/-- C9 counterexample: with the scale set `[2, 2]` — fewer than two distinct
scale values — `dfa` does not fail with any error: it returns a numeric
result.  (numpy merely emits a `RankWarning` for the rank-deficient line
fit.) -/
theorem c9_counterexample :
    (dfa [1, 2, 3, 4] [2, 2] 1 [2] true).isOk = true := by
  rw [dfa_eq_ok [1, 2, 3, 4] [2, 2] 1 [2] true (by decide) (by decide)]
  rfl

/-- C9 amended: the code has no distinct-scale check and no
`InsufficientData` error.  For every NON-EMPTY scale set whose elements are
all equal (hence fewer than 2 distinct values) the call returns `ok` — even
though the least-squares slope is then not well-defined: the closed-form
slope denominator over `log S` is exactly `0`.  With an EMPTY scale set and a
non-empty `Q` the call instead fails with the `TypeError` that `np.polyfit`
raises on an empty x-vector — still not an `InsufficientData` error. -/
theorem c9_no_insufficient_data_check (x : List ℝ) (S : List ℕ) (m : ℕ)
    (Q : List ℚ) (sa : Bool) (hpos : ∀ s ∈ S, 1 ≤ s)
    (hconst : ∀ a ∈ S, ∀ b ∈ S, a = b) :
    (S ≠ [] → (dfa x S m Q sa).isOk = true) ∧
      ((S.map (fun s : ℕ => Real.log (s : ℝ))).length : ℝ) *
          ((S.map (fun s : ℕ => Real.log (s : ℝ))).map (fun t => t ^ 2)).sum -
        (S.map (fun s : ℕ => Real.log (s : ℝ))).sum ^ 2 = 0 ∧
      (∀ (q : ℚ) (Qrest : List ℚ),
        dfa x [] m (q :: Qrest) sa = .error .typeError) := by
  refine ⟨?_, ?_, ?_⟩
  · intro hne
    rw [dfa_eq_ok x S m Q sa hpos hne]
    rfl
  · apply sq_sum_denom_zero
    intro a ha b hb
    obtain ⟨s1, hs1, rfl⟩ := List.mem_map.mp ha
    obtain ⟨s2, hs2, rfl⟩ := List.mem_map.mp hb
    rw [hconst s1 hs1 s2 hs2]
  · intro q Qrest
    rfl

/-- C9 witness: the amended theorem applied at `x = [1,2,3,4]`, `S = [2,2]`,
`m = 1`, `Q = [2]`, `skip_agg = true`, with the empty-scale-set conjunct
instantiated at `Q = [2]`. -/
theorem c9_no_insufficient_data_check_witness :
    (dfa [1, 2, 3, 4] [2, 2] 1 [2] true).isOk = true ∧
      ((([2, 2] : List ℕ).map (fun s : ℕ => Real.log (s : ℝ))).length : ℝ) *
          ((([2, 2] : List ℕ).map (fun s : ℕ => Real.log (s : ℝ))).map (fun t => t ^ 2)).sum -
        (([2, 2] : List ℕ).map (fun s : ℕ => Real.log (s : ℝ))).sum ^ 2 = 0 ∧
      dfa [1, 2, 3, 4] ([] : List ℕ) 1 [2] true = .error .typeError := by
  have h := c9_no_insufficient_data_check [1, 2, 3, 4] [2, 2] 1 [2] true
    (by decide) (by decide)
  exact ⟨h.1 (by decide), h.2.1, h.2.2 2 []⟩

/-- C10: for every `1 ≤ N < 200` with the default `observations = 100`,
`basic_dfa` computes `s_max = N/10 < s_min = 20`, so `s_inc < 0`; the
generated scale set starts at `S[0] = 20`, is non-increasing, every element is
at most `20`; for `N < 40` the set contains a scale exceeding `N/2`; and the
set is passed to `dfa` without validation. -/
theorem c10_small_series (N : ℕ) (h1 : 1 ≤ N) (h2 : N < 200) :
    basic_dfa_smin N = 20 ∧
      basic_dfa_smax N = ((N / 10 : ℕ) : ℤ) ∧
      basic_dfa_smax N < basic_dfa_smin N ∧
      basic_dfa_sinc N 100 < 0 ∧
      (scaleSet N 100).get? 0 = some 20 ∧
      (∀ i j a b, i ≤ j → j < 100 → (scaleSet N 100).get? i = some a →
        (scaleSet N 100).get? j = some b → b ≤ a) ∧
      (∀ i a, i < 100 → (scaleSet N 100).get? i = some a → a ≤ 20) ∧
      (N < 40 → ∃ t ∈ scaleSet N 100, (N : ℚ) < 2 * (t : ℚ)) ∧
      (∀ (x : List ℝ) (Q : List ℚ) (sa : Bool),
        basic_dfa x Q sa 100 = dfa x ((scaleSet x.length 100).map Int.toNat) 1 Q sa) := by
  have hmin : basic_dfa_smin N = 20 := by
    rw [basic_dfa_smin]
    apply max_eq_left
    exact_mod_cast (show (N / 100 : ℕ) ≤ 20 by omega)
  have hmax : basic_dfa_smax N = ((N / 10 : ℕ) : ℤ) := by
    rw [basic_dfa_smax, hmin]
    apply min_eq_right
    exact_mod_cast (show (N / 10 : ℕ) ≤ 20 * 20 by omega)
  have hlt : basic_dfa_smax N < basic_dfa_smin N := by
    rw [hmin, hmax]
    exact_mod_cast (show (N / 10 : ℕ) < 20 by omega)
  have hsinc : basic_dfa_sinc N 100 < 0 := by
    rw [basic_dfa_sinc]
    apply div_neg_of_neg_of_pos
    · exact_mod_cast sub_neg.mpr hlt
    · norm_num
  have hget : ∀ i, i < 100 → (scaleSet N 100).get? i =
      some (20 + ⌊(i : ℚ) * basic_dfa_sinc N 100⌋) := by
    intro i hi
    rw [scaleSet_get? N 100 i hi, hmin]
  have hget0 : (scaleSet N 100).get? 0 = some 20 := by
    rw [hget 0 (by omega)]
    norm_num
  refine ⟨hmin, hmax, hlt, hsinc, hget0, ?_, ?_, ?_, ?_⟩
  · intro i j a b hij hj hia hjb
    rw [hget i (lt_of_le_of_lt hij hj)] at hia
    rw [hget j hj] at hjb
    have ha := Option.some.inj hia
    have hb := Option.some.inj hjb
    have hmono : (j : ℚ) * basic_dfa_sinc N 100 ≤ (i : ℚ) * basic_dfa_sinc N 100 :=
      mul_le_mul_of_nonpos_right (by exact_mod_cast hij) (le_of_lt hsinc)
    have hfl := Int.floor_mono hmono
    omega
  · intro i a hi hia
    rw [hget i hi] at hia
    have ha := Option.some.inj hia
    have hneg : (i : ℚ) * basic_dfa_sinc N 100 ≤ 0 :=
      mul_nonpos_of_nonneg_of_nonpos (by positivity) (le_of_lt hsinc)
    have hfl := Int.floor_nonpos hneg
    omega
  · intro hN40
    refine ⟨20, List.get?_mem hget0, ?_⟩
    push_cast
    exact_mod_cast hN40
  · intro x Q sa
    rw [basic_dfa, if_neg (by norm_num)]

/-- C10 witness: the theorem applied at `N = 30`, projected to `s_min = 20`,
`s_max < s_min`, `s_inc < 0` and the existence of a scale exceeding `N/2`. -/
theorem c10_small_series_witness :
    basic_dfa_smin 30 = 20 ∧ basic_dfa_smax 30 < basic_dfa_smin 30 ∧
      basic_dfa_sinc 30 100 < 0 ∧
      ∃ t ∈ scaleSet 30 100, (30 : ℚ) < 2 * (t : ℚ) := by
  have h := c10_small_series 30 (by decide) (by decide)
  exact ⟨h.1, h.2.2.1, h.2.2.2.1, h.2.2.2.2.2.2.2.1 (by decide)⟩

end MFDFA

end
